import Mathlib

/-!
Verification of the merge-and-normalize pipeline of `owasp-asvs-csv-converter`
(`src/csv_merger.py`).

The embedding models a pandas `DataFrame` as an ordered list of column names
together with rows; each row is an association list from column names to cells.
A cell is `Option String`: `none` stands for a missing value (`NaN`/`pd.NA`),
`some s` for the text `s`.  A well-formed table has each row's keys equal to
the column list, in order.

`_parse_req_id` is embedded as `parse_req_id`; the regex `V(\d+)\.(\d+)\.(\d+)`
is matched with Python `re.match` semantics (anchored at the start of the
string, an arbitrary tail may follow; digits are modelled as ASCII `0`-`9`).
The sentinel `(float("inf"), float("inf"), float("inf"))` is the constructor
`SortKey.inf`.
-/

namespace AsvsMerge

/-- A cell of a table: `none` is a missing value (pandas `NaN` / `pd.NA`). -/
abbrev Cell : Type := Option String

/-- A row: an association list from column names to cells.  In a well-formed
table the keys agree with the column list of the table. -/
abbrev Row : Type := List (String × Cell)

/-- Column lookup in a row, first match wins; a missing column reads as a
missing value (this mirrors how the cells of a frame are addressed by column
name). -/
def aget : Row → String → Cell
  | [], _ => none
  | (k, v) :: rest, c => if k = c then v else aget rest c

/-- A table: ordered column names plus rows. -/
structure DF where
  cols : List String
  rows : List Row
deriving DecidableEq, Repr

/-- Well-formedness: each row's keys are exactly the columns, in order. -/
def DF.WF (df : DF) : Prop :=
  ∀ r ∈ df.rows, r.map Prod.fst = df.cols

instance (df : DF) : Decidable df.WF := by
  unfold DF.WF
  infer_instance

/-- The `req_id` values of a table, row by row. -/
def reqIds (df : DF) : List Cell :=
  df.rows.map (fun r => aget r "req_id")

/-! ### Lookup lemmas -/
/-! ### The identifier parser (`_parse_req_id`)

`re.match(r"V(\d+)\.(\d+)\.(\d+)", req_id)` anchors at the start of the
string only; each `\d+` is greedy, and since `.` is not a digit the greedy
match coincides with taking the maximal digit run at each position. -/

/-- A sort key: either a parsed triple `(major, minor, patch)` or the
sentinel `(float("inf"), float("inf"), float("inf"))`. -/
inductive SortKey where
  | fin (a b c : Nat) : SortKey
  | inf : SortKey
deriving DecidableEq, Repr

/-- Python `<` on the key tuples: lexicographic, with the sentinel strictly
above every finite triple. -/
def SortKey.lt : SortKey → SortKey → Bool
  | .inf, _ => false
  | .fin _ _ _, .inf => true
  | .fin a b c, .fin d e f =>
      decide (a < d) ||
        (decide (a = d) && (decide (b < e) || (decide (b = e) && decide (c < f))))

/-- Python `<=` on the key tuples (equivalently `not (y < x)` for this total
order). -/
def SortKey.le (x y : SortKey) : Bool := !(SortKey.lt y x)

/-- Numeric value of a list of decimal digits, as computed by Python `int`. -/
def digitsVal (l : List Char) : Nat :=
  l.foldl (fun n c => 10 * n + (c.toNat - 48)) 0

/-- One greedy capture group `(\d+)`: take the maximal digit run; fail when it
is empty; return its integer value and the remaining input. -/
def grabDigits (cs : List Char) : Option (Nat × List Char) :=
  let d := cs.takeWhile Char.isDigit
  if d.isEmpty then none else some (digitsVal d, cs.dropWhile Char.isDigit)

/-- The literal `\.` of the pattern: consume one `.`. -/
def expectDot : List Char → Option (List Char)
  | [] => none
  | c :: rest => if c = '.' then some rest else none

/-- The regex engine for `V(\d+)\.(\d+)\.(\d+)` under `re.match`: anchored at
the start, arbitrary tail allowed after the third group.  Returns the three
captured groups converted to integers. -/
def matchV (cs : List Char) : Option (Nat × Nat × Nat) :=
  match cs with
  | [] => none
  | c0 :: rest =>
    if c0 = 'V' then
      (grabDigits rest).bind fun p1 =>
      (expectDot p1.2).bind fun rest2 =>
      (grabDigits rest2).bind fun p2 =>
      (expectDot p2.2).bind fun rest3 =>
      (grabDigits rest3).bind fun p3 =>
      some (p1.1, p2.1, p3.1)
    else none

/-- `_parse_req_id`: a missing or non-string cell (`none`) and any string the
regex does not match yield the sentinel; a match yields the captured triple.
The function is total — nothing is thrown. -/
def parse_req_id (req_id : Cell) : SortKey :=
  match req_id with
  | none => .inf
  | some s =>
    match matchV s.data with
    | some (a, b, c) => .fin a b c
    | none => .inf

/-- A non-empty run of (ASCII) digits: one capture group `(\d+)`. -/
def DigitRun (l : List Char) : Prop := l ≠ [] ∧ ∀ c ∈ l, c.isDigit = true

instance (l : List Char) : Decidable (DigitRun l) := by
  unfold DigitRun
  infer_instance

/-- Declarative reading of "the string matches `V(\d+)\.(\d+)\.(\d+)` under
`re.match`, capturing `da`, `db`, `dc`, with tail `rest`": the groups are
non-empty digit runs and the tail does not begin with a digit (greediness of
the third group). -/
def MatchesV (s da db dc rest : List Char) : Prop :=
  s = 'V' :: (da ++ '.' :: (db ++ '.' :: (dc ++ rest))) ∧
    DigitRun da ∧ DigitRun db ∧ DigitRun dc ∧
    (∀ c, rest.head? = some c → c.isDigit = false)

instance (s da db dc rest : List Char) : Decidable (MatchesV s da db dc rest) := by
  unfold MatchesV DigitRun
  infer_instance
/-! ### The sort step (lines 162–169 of `csv_merger.py`) -/

/-- The sort key of a row: `_parse_req_id` applied to its `req_id` cell (a
missing cell is a pandas `NaN`, a non-string, hence the sentinel). -/
def rowKey (r : Row) : SortKey := parse_req_id (aget r "req_id")

/-- The row ordering induced by the parsed key. -/
def rowLe (r1 r2 : Row) : Prop := SortKey.le (rowKey r1) (rowKey r2) = true

instance : DecidableRel rowLe := fun r1 r2 => instDecidableEqBool _ _

instance : IsTotal Row rowLe :=
  ⟨fun r1 r2 => by
    unfold rowLe
    generalize rowKey r1 = x
    generalize rowKey r2 = y
    cases x <;> cases y <;> simp [SortKey.le, SortKey.lt] <;> omega⟩

instance : IsTrans Row rowLe :=
  ⟨fun r1 r2 r3 h1 h2 => by
    unfold rowLe at h1 h2 ⊢
    generalize hx : rowKey r1 = x at h1 ⊢
    generalize hy : rowKey r2 = y at h1 h2
    generalize hz : rowKey r3 = z at h2 ⊢
    cases x <;> cases y <;> cases z <;>
      simp_all [SortKey.le, SortKey.lt] <;> omega⟩

/-- `df_merged.sort_values(by="req_id", key=lambda col: col.map(_parse_req_id))`
wrapped in `try/except`: when the `req_id` column is absent, `sort_values`
raises `KeyError`, the handler logs and the table stays unsorted.

Modelled from the spec: the row reordering performed by pandas `sort_values`
(third-party library code, not part of this repository) is taken to be a
stable ascending sort by the computed key, per §4.4 of the spec ("reorder rows
by ascending sort key (stable ordering for ties)"). -/
def sortByReqId (df : DF) : DF :=
  if "req_id" ∈ df.cols then { df with rows := df.rows.insertionSort rowLe } else df



/-- `FINAL_COLUMNS_ORDER`: the 14 canonical output columns, in order. -/
def FINAL_COLUMNS_ORDER : List String :=
  ["req_id", "chapter_id", "chapter_name_ja", "chapter_name_en", "section_id",
   "section_name_ja", "section_name_en", "req_description_ja",
   "req_description_en", "level1", "level2", "level3", "cwe", "nist"]

/-- `COMMON_COLS`: the columns expected to be shared by both frames. -/
def COMMON_COLS : List String :=
  ["req_id", "chapter_id", "section_id", "level1", "level2", "level3", "cwe",
   "nist"]

/-! ### The loader (`_load_and_prepare_csv`, lines 68–97) -/

/-- What the loader observes for one path: existence (`Path.is_file`), size
(`stat().st_size`), and the outcome of `pd.read_csv` (`none` models the
reader raising for an unparsable file). -/
structure FsFile where
  isFile : Bool
  size : Nat
  parse : Option DF
  path : String

/-- Rename a row's keys. -/
def rowRename (f : String → String) (r : Row) : Row :=
  r.map (fun p => (f p.1, p.2))

/-- `str.strip()` on one column name: drop leading and trailing whitespace.
(Implemented over the character list so that it evaluates; agrees with pandas
`str.strip` on ASCII whitespace.) -/
def strTrim (s : String) : String :=
  String.mk (((s.data.dropWhile Char.isWhitespace).reverse.dropWhile
    Char.isWhitespace).reverse)

/-- `df.columns.str.strip()`: trim whitespace from every column name. -/
def trimDF (raw : DF) : DF :=
  { cols := raw.cols.map strTrim,
    rows := raw.rows.map (rowRename strTrim) }

/-- The `cols_to_rename` mapping restricted to existing columns is, as a total
renaming, the identity outside the three language-specific names. -/
def renameForLang (lang : String) (c : String) : String :=
  if c = "chapter_name" then "chapter_name_" ++ lang
  else if c = "section_name" then "section_name_" ++ lang
  else if c = "req_description" then "req_description_" ++ lang
  else c

/-- `df.rename(columns=...)` for the language columns. -/
def renameDF (lang : String) (df : DF) : DF :=
  { cols := df.cols.map (renameForLang lang),
    rows := df.rows.map (rowRename (renameForLang lang)) }

/-- `_load_and_prepare_csv`: returns the prepared table (or `none`, the
"absent" sentinel) together with the messages printed.  Total — no exception
escapes. -/
def load_and_prepare_csv (f : FsFile) (lang : String) : Option DF × List String :=
  if f.isFile = false ∨ f.size = 0 then
    (none, ["Warning: CSV file not found or empty: " ++ f.path])
  else
    match f.parse with
    | none => (none, ["Error reading or preparing CSV " ++ f.path])
    | some raw =>
      let df := trimDF raw
      if "req_id" ∉ df.cols then
        (none, ["Error: req_id column missing in " ++ f.path])
      else
        (some (renameDF lang df), ["Loaded and prepared CSV: " ++ f.path])

/-! ### The merge (`merge_csv_files`, lines 100–190) -/

/-- `list(set(df_ja.columns) & set(df_en.columns) & set(COMMON_COLS))`.
Python set iteration order is unspecified; only membership matters downstream,
so the intersection is listed in `COMMON_COLS` order. -/
def commonKeys (dja den : DF) : List String :=
  COMMON_COLS.filter (fun c => decide (c ∈ dja.cols) && decide (c ∈ den.cols))

/-- Column renaming of `pd.merge` for one frame: a non-key column whose name
also appears in the other frame gets this frame's suffix. -/
def suffixFn (ks otherCols : List String) (suf : String) (c : String) : String :=
  if c ∉ ks ∧ c ∈ otherCols then c ++ suf else c

/-- The join-key tuple of a row. -/
def keyTuple (ks : List String) (r : Row) : List Cell := ks.map (aget r)

/-- The non-key cells of the right frame's row, with the right suffix
applied. -/
def rNonKeyOf (l : DF) (ks : List String) (rsuf : String) (rr : Row) : Row :=
  rowRename (suffixFn ks l.cols rsuf) (rr.filter (fun p => decide (p.1 ∉ ks)))

/-- The right-frame rows whose key tuple matches `lr`. -/
def matchedRows (r : DF) (ks : List String) (lr : Row) : List Row :=
  r.rows.filter (fun rr => decide (keyTuple ks rr = keyTuple ks lr))

/-- A matched output row: all left cells (renamed), then the right non-key
cells (renamed). -/
def combineRow (l r : DF) (ks : List String) (lsuf rsuf : String) (lr rr : Row) : Row :=
  rowRename (suffixFn ks r.cols lsuf) lr ++ rNonKeyOf l ks rsuf rr

/-- An unmatched left row: its cells, with the right non-key columns all
missing. -/
def leftOnlyRow (l r : DF) (ks : List String) (lsuf rsuf : String) (lr : Row) : Row :=
  rowRename (suffixFn ks r.cols lsuf) lr ++
    (r.cols.filter (fun c => decide (c ∉ ks))).map
      (fun c => (suffixFn ks l.cols rsuf c, (none : Cell)))

/-- An unmatched right row: its key cells under the left columns (the other
left columns missing), then its non-key cells. -/
def rightOnlyRow (l r : DF) (ks : List String) (lsuf rsuf : String) (rr : Row) : Row :=
  l.cols.map (fun c => (suffixFn ks r.cols lsuf c, if c ∈ ks then aget rr c else none)) ++
    rNonKeyOf l ks rsuf rr

/-- `pd.merge(l, r, on=ks, how="outer", suffixes=(lsuf, rsuf))`: matched pairs
give combined rows (left cells, then right non-key cells); an unmatched left
row keeps its cells with the right non-key columns missing; an unmatched right
row puts its key cells in the key columns and has the other left columns
missing.  Row order is modelled left-major; no claim depends on the row order
the merge itself produces (the pipeline re-sorts). -/
def outerMerge (l r : DF) (ks : List String) (lsuf rsuf : String) : DF :=
  { cols := l.cols.map (suffixFn ks r.cols lsuf) ++
      (r.cols.filter (fun c => decide (c ∉ ks))).map (suffixFn ks l.cols rsuf),
    rows :=
      (l.rows.flatMap (fun lr =>
        if matchedRows r ks lr = [] then [leftOnlyRow l r ks lsuf rsuf lr]
        else (matchedRows r ks lr).map (combineRow l r ks lsuf rsuf lr)))
      ++ ((r.rows.filter (fun rr =>
            l.rows.all (fun lr => decide (keyTuple ks lr ≠ keyTuple ks rr)))).map
          (rightOnlyRow l r ks lsuf rsuf)) }

/-- Lines 110–160: the branch structure of `merge_csv_files` after loading.
Both frames present: compute the key set, abort (`return`, no output) when
`req_id` is not among the keys, otherwise outer-merge (the model's merge is
total, so the `except` fallback to a single frame is never taken).  One frame
present: use it as is.  Neither: no merged table. -/
def mergedTable (dja den : Option DF) : Option DF :=
  match dja, den with
  | some ja, some en =>
    if "req_id" ∈ commonKeys ja en then
      some (outerMerge ja en (commonKeys ja en) "_ja" "_en")
    else none
  | some ja, none => some ja
  | none, some en => some en
  | none, none => none

/-- Lines 176–179: for each canonical column absent from the table, append it
with every cell missing (`df_merged[col] = pd.NA`), in canonical order. -/
def addMissingFinalCols (df : DF) : DF :=
  let missing := FINAL_COLUMNS_ORDER.filter (fun c => decide (c ∉ df.cols))
  { cols := df.cols ++ missing,
    rows := df.rows.map (fun r => r ++ missing.map (fun c => (c, (none : Cell)))) }

/-- Line 182: `df_merged.reindex(columns=FINAL_COLUMNS_ORDER)` — exactly the
canonical columns, in canonical order, dropping all others. -/
def reindexFinal (df : DF) : DF :=
  { cols := FINAL_COLUMNS_ORDER,
    rows := df.rows.map (fun r => FINAL_COLUMNS_ORDER.map (fun c => (c, aget r c))) }

/-- The pipeline applied to the two load results: merge decision, sort by
`req_id`, canonical projection.  `none` means `merge_csv_files` returned
without writing an output file. -/
def mergeFromLoaded (dja den : Option DF) : Option DF :=
  (mergedTable dja den).map (fun d => reindexFinal (addMissingFinalCols (sortByReqId d)))

/-- The messages printed by the merge-decision stage. -/
def mergeStageLog (dja den : Option DF) : List String :=
  match dja, den with
  | some ja, some en =>
    if "req_id" ∈ commonKeys ja en then []
    else ["Critical Error: req_id is missing from common columns for merge."]
  | some _, none => ["Merge failed or English CSV missing. Using Japanese CSV data."]
  | none, some _ => ["Merge failed or Japanese CSV missing. Using English CSV data."]
  | none, none =>
    ["Error: Neither English nor Japanese CSV could be loaded. Cannot create merged file."]

/-- `merge_csv_files` end to end: load both files (Japanese first, as in the
source), decide the merge, sort, project.  The first component is the table
written to the output file (`none` = no file written). -/
def merge_csv_files (fja fen : FsFile) : Option DF × List String :=
  let pja := load_and_prepare_csv fja "ja"
  let pen := load_and_prepare_csv fen "en"
  (mergeFromLoaded pja.1 pen.1, pja.2 ++ pen.2 ++ mergeStageLog pja.1 pen.1)
/-! ### Concrete tables for the exactly-once analysis of the outer join -/

/-- Japanese side: one row, `cwe` 79. -/
def c3ja : DF :=
  ⟨["req_id", "cwe"], [[("req_id", some "V1.1.1"), ("cwe", some "79")]]⟩

/-- English side: same `req_id`, different `cwe` (89). -/
def c3en : DF :=
  ⟨["req_id", "cwe"], [[("req_id", some "V1.1.1"), ("cwe", some "89")]]⟩

/-- Japanese table of the spec §8 scenario (used as the amended-claim
witness). -/
def c3wja : DF :=
  ⟨["req_id", "req_description_ja"],
   [[("req_id", some "V1.1.1"), ("req_description_ja", some "desc-ja")],
    [("req_id", some "V1.1.2"), ("req_description_ja", some "desc-ja2")]]⟩

/-- English table of the spec §8 scenario. -/
def c3wen : DF :=
  ⟨["req_id", "req_description_en"],
   [[("req_id", some "V1.1.1"), ("req_description_en", some "desc-en")]]⟩

/-! ### Lemma library -/


theorem aget_cons (k : String) (v : Cell) (r : Row) (c : String) :
    aget ((k, v) :: r) c = if k = c then v else aget r c := rfl

theorem aget_append_left {r : Row} (s : Row) {c : String}
    (h : c ∈ r.map Prod.fst) : aget (r ++ s) c = aget r c := by
  induction r with
  | nil => simp at h
  | cons p t ih =>
    obtain ⟨k, v⟩ := p
    by_cases hk : k = c
    · simp [aget, hk]
    · simp only [List.map_cons, List.mem_cons] at h
      rcases h with h | h
      · exact absurd h.symm hk
      · simp [aget, hk, ih h]

theorem aget_append_right {r : Row} (s : Row) {c : String}
    (h : c ∉ r.map Prod.fst) : aget (r ++ s) c = aget s c := by
  induction r with
  | nil => rfl
  | cons p t ih =>
    obtain ⟨k, v⟩ := p
    simp only [List.map_cons, List.mem_cons, not_or] at h
    have hk : ¬ k = c := fun hk => h.1 hk.symm
    simp [aget, hk, ih h.2]

theorem aget_eq_none_of_not_mem {r : Row} {c : String}
    (h : c ∉ r.map Prod.fst) : aget r c = none := by
  induction r with
  | nil => rfl
  | cons p t ih =>
    obtain ⟨k, v⟩ := p
    simp only [List.map_cons, List.mem_cons, not_or] at h
    have hk : ¬ k = c := fun hk => h.1 hk.symm
    simp [aget, hk, ih h.2]

/-- Lookup in a row whose keys have been renamed by `f`: when `c` has a unique
`f`-preimage `c₀` among all keys, the lookup of `c` finds the cell of `c₀`. -/
theorem aget_map_rename {r : Row} {f : String → String} {c c₀ : String}
    (h : ∀ k ∈ r.map Prod.fst, f k = c ↔ k = c₀) :
    aget (r.map (fun p => (f p.1, p.2))) c = aget r c₀ := by
  induction r with
  | nil => rfl
  | cons p t ih =>
    obtain ⟨k, v⟩ := p
    have hk := h k (by simp)
    have ht : ∀ k' ∈ t.map Prod.fst, f k' = c ↔ k' = c₀ := by
      intro k' hk'; exact h k' (by simp [hk'])
    by_cases he : f k = c
    · have hk0 : k = c₀ := hk.mp he
      subst hk0
      simp [aget, he]
    · have hne : ¬ k = c₀ := fun hc => he (hk.mpr hc)
      simp [aget, he, hne, ih ht]

/-- Lookup in a list of pairs built by tagging each name of `xs` with a value:
the first occurrence of `c` in `xs` decides the result. -/
theorem aget_map_self {xs : List String} {g : String → Cell} {c : String}
    (h : c ∈ xs) : aget (xs.map (fun k => (k, g k))) c = g c := by
  induction xs with
  | nil => simp at h
  | cons x t ih =>
    by_cases hx : x = c
    · simp [aget, hx]
    · simp only [List.mem_cons] at h
      rcases h with h | h
      · exact absurd h.symm hx
      · simp [aget, hx, ih h]

theorem aget_all_none {r : Row} (h : ∀ p ∈ r, p.2 = none) (c : String) :
    aget r c = none := by
  induction r with
  | nil => rfl
  | cons p t ih =>
    obtain ⟨k, v⟩ := p
    have hv : v = none := h (k, v) (by simp)
    exact if hk : k = c then by simp [aget, hk, hv]
      else by simpa [aget, hk] using ih (fun q hq => h q (by simp [hq]))


theorem takeWhile_app {p : Char → Bool} {xs ys : List Char}
    (h1 : ∀ a ∈ xs, p a = true) (h2 : ∀ y, ys.head? = some y → p y = false) :
    (xs ++ ys).takeWhile p = xs := by
  induction xs with
  | nil =>
    cases ys with
    | nil => rfl
    | cons y t => simp [List.takeWhile, h2 y rfl]
  | cons x t ih =>
    have hx : p x = true := h1 x (by simp)
    have ih' := ih (fun a ha => h1 a (by simp [ha]))
    simp only [List.cons_append, List.takeWhile_cons, hx, ite_true, ih']

theorem dropWhile_app {p : Char → Bool} {xs ys : List Char}
    (h1 : ∀ a ∈ xs, p a = true) (h2 : ∀ y, ys.head? = some y → p y = false) :
    (xs ++ ys).dropWhile p = ys := by
  induction xs with
  | nil =>
    cases ys with
    | nil => rfl
    | cons y t => simp [List.dropWhile, h2 y rfl]
  | cons x t ih =>
    have hx : p x = true := h1 x (by simp)
    have ih' := ih (fun a ha => h1 a (by simp [ha]))
    simp only [List.cons_append, List.dropWhile_cons, hx, ite_true, ih']

theorem mem_takeWhile_digit {l : List Char} {c : Char}
    (h : c ∈ l.takeWhile Char.isDigit) : c.isDigit = true := by
  induction l with
  | nil => simp [List.takeWhile] at h
  | cons x t ih =>
    by_cases hx : x.isDigit = true
    · simp only [List.takeWhile, hx, List.mem_cons] at h
      rcases h with h | h
      · exact h ▸ hx
      · exact ih h
    · simp [List.takeWhile, Bool.eq_false_iff.mpr hx] at h

theorem head_dropWhile_not_digit {l : List Char} {c : Char}
    (h : (l.dropWhile Char.isDigit).head? = some c) : c.isDigit = false := by
  induction l with
  | nil => simp [List.dropWhile] at h
  | cons x t ih =>
    by_cases hx : x.isDigit = true
    · simp only [List.dropWhile, hx] at h
      exact ih h
    · simp only [List.dropWhile, Bool.eq_false_iff.mpr hx] at h
      simp only [List.head?] at h
      cases h
      exact Bool.eq_false_iff.mpr hx

/-- A greedy group consumes exactly a maximal digit run. -/
theorem grabDigits_app {d ys : List Char} (hd : DigitRun d)
    (hys : ∀ y, ys.head? = some y → y.isDigit = false) :
    grabDigits (d ++ ys) = some (digitsVal d, ys) := by
  obtain ⟨hne, hdig⟩ := hd
  have t1 : (d ++ ys).takeWhile Char.isDigit = d := takeWhile_app hdig hys
  have t2 : (d ++ ys).dropWhile Char.isDigit = ys := dropWhile_app hdig hys
  simp [grabDigits, t1, t2, List.isEmpty_iff, hne]

theorem grabDigits_eq_some {cs : List Char} {n : Nat} {r : List Char}
    (h : grabDigits cs = some (n, r)) :
    cs = cs.takeWhile Char.isDigit ++ r ∧ DigitRun (cs.takeWhile Char.isDigit) ∧
      n = digitsVal (cs.takeWhile Char.isDigit) ∧
      (∀ y, r.head? = some y → y.isDigit = false) := by
  by_cases he : (cs.takeWhile Char.isDigit).isEmpty
  · simp [grabDigits, he] at h
  simp only [grabDigits, he, Bool.false_eq_true, if_false, Option.some.injEq,
    Prod.mk.injEq] at h
  obtain ⟨hn, hr⟩ := h
  refine ⟨?_, ⟨by simpa [List.isEmpty_iff] using he, fun x hx => mem_takeWhile_digit hx⟩,
    hn.symm, ?_⟩
  · rw [← hr]
    exact (List.takeWhile_append_dropWhile Char.isDigit cs).symm
  · intro y hy
    rw [← hr] at hy
    exact head_dropWhile_not_digit hy

theorem expectDot_eq_some {cs r : List Char} :
    expectDot cs = some r ↔ cs = '.' :: r := by
  cases cs with
  | nil => simp [expectDot]
  | cons c t =>
    by_cases hc : c = '.'
    · subst hc
      simp [expectDot, eq_comm]
    · simp [expectDot, hc]

/-- Soundness + computed groups: whenever the declarative match holds, the
parser produces exactly the captured triple. -/
theorem matchV_of_matches {s da db dc rest : List Char}
    (h : MatchesV s da db dc rest) :
    matchV s = some (digitsVal da, digitsVal db, digitsVal dc) := by
  obtain ⟨hs, hda, hdb, hdc, hrest⟩ := h
  subst hs
  have hdot : ∀ (l : List Char) (y : Char),
      ('.' :: l).head? = some y → y.isDigit = false := by
    intro l y hy
    simp only [List.head?] at hy
    cases hy
    decide
  have g1 : grabDigits (da ++ '.' :: (db ++ '.' :: (dc ++ rest))) =
      some (digitsVal da, '.' :: (db ++ '.' :: (dc ++ rest))) :=
    grabDigits_app hda (hdot _)
  have g2 : grabDigits (db ++ '.' :: (dc ++ rest)) =
      some (digitsVal db, '.' :: (dc ++ rest)) := grabDigits_app hdb (hdot _)
  have g3 : grabDigits (dc ++ rest) = some (digitsVal dc, rest) :=
    grabDigits_app hdc hrest
  simp [matchV, g1, g2, g3, expectDot]

/-- Completeness: whenever the parser succeeds, a declarative match exists
with exactly the returned groups. -/
theorem matches_of_matchV {s : List Char} {a b c : Nat}
    (h : matchV s = some (a, b, c)) :
    ∃ da db dc rest, MatchesV s da db dc rest ∧
      a = digitsVal da ∧ b = digitsVal db ∧ c = digitsVal dc := by
  cases s with
  | nil => simp [matchV] at h
  | cons c0 rest0 =>
    by_cases h0 : c0 = 'V'
    swap
    · simp [matchV, h0] at h
    subst h0
    simp only [matchV, if_true, Option.bind_eq_some, Option.some.injEq,
      Prod.mk.injEq] at h
    obtain ⟨⟨n1, r1⟩, hg1, rest2, hd1, ⟨n2, r2⟩, hg2, rest3, hd2, ⟨n3, r3⟩, hg3,
      ha, hb, hc⟩ := h
    dsimp only at hd1 hd2 ha hb hc
    obtain ⟨he1, hrun1, hn1, -⟩ := grabDigits_eq_some hg1
    obtain ⟨he2, hrun2, hn2, -⟩ := grabDigits_eq_some hg2
    obtain ⟨he3, hrun3, hn3, htail⟩ := grabDigits_eq_some hg3
    rw [expectDot_eq_some] at hd1 hd2
    set d1 := rest0.takeWhile Char.isDigit with hD1
    set d2 := rest2.takeWhile Char.isDigit with hD2
    set d3 := rest3.takeWhile Char.isDigit with hD3
    refine ⟨d1, d2, d3, r3, ⟨?_, hrun1, hrun2, hrun3, htail⟩, ?_, ?_, ?_⟩
    · rw [he1, hd1, he2, hd2, he3]
    · rw [← ha, hn1]
    · rw [← hb, hn2]
    · rw [← hc, hn3]

/-! ### Order properties of the sort key -/

theorem SortKey.lt_iff_fin {a b c d e f : Nat} :
    SortKey.lt (.fin a b c) (.fin d e f) = true ↔
      a < d ∨ (a = d ∧ (b < e ∨ (b = e ∧ c < f))) := by
  simp [SortKey.lt]

theorem SortKey.lt_fin_inf (a b c : Nat) : SortKey.lt (.fin a b c) .inf = true := rfl

theorem SortKey.lt_inf_false (x : SortKey) : SortKey.lt .inf x = false := rfl

theorem SortKey.le_refl (x : SortKey) : SortKey.le x x = true := by
  cases x <;> simp [SortKey.le, SortKey.lt]

theorem SortKey.le_total (x y : SortKey) :
    SortKey.le x y = true ∨ SortKey.le y x = true := by
  cases x <;> cases y <;> simp [SortKey.le, SortKey.lt] <;> omega

theorem SortKey.le_trans {x y z : SortKey}
    (h1 : SortKey.le x y = true) (h2 : SortKey.le y z = true) :
    SortKey.le x z = true := by
  cases x <;> cases y <;> cases z <;>
    simp [SortKey.le, SortKey.lt] at h1 h2 ⊢ <;> omega

theorem SortKey.le_of_eq {x y : SortKey} (h : x = y) : SortKey.le x y = true :=
  h ▸ SortKey.le_refl x

theorem filter_orderedInsert_pos {α : Type} {r : α → α → Prop} [DecidableRel r]
    (q : α → Bool) (x : α) (l : List α)
    (hq : ∀ y, q y = true → r x y) (hx : q x = true) :
    (l.orderedInsert r x).filter q = x :: l.filter q := by
  induction l with
  | nil => simp [List.orderedInsert, hx]
  | cons y t ih =>
    by_cases hr : r x y
    · simp [List.orderedInsert, hr, hx]
    · have hqy : q y = false := by
        cases hqy : q y
        · rfl
        · exact absurd (hq y hqy) hr
      simp [List.orderedInsert, hr, hqy, ih]

theorem filter_orderedInsert_neg {α : Type} {r : α → α → Prop} [DecidableRel r]
    (q : α → Bool) (x : α) (l : List α) (hx : q x = false) :
    (l.orderedInsert r x).filter q = l.filter q := by
  induction l with
  | nil => simp [List.orderedInsert, hx]
  | cons y t ih =>
    by_cases hr : r x y
    · simp [List.orderedInsert, hr, hx]
    · simp [List.orderedInsert, hr, List.filter_cons, ih]

/-- Stability of insertion sort: filtering to any class of pairwise
`r`-comparable elements (e.g. rows of one fixed sort key) is unchanged by
sorting. -/
theorem filter_insertionSort {α : Type} (r : α → α → Prop) [DecidableRel r]
    (q : α → Bool) (l : List α)
    (hq : ∀ x y, q x = true → q y = true → r x y) :
    (l.insertionSort r).filter q = l.filter q := by
  induction l with
  | nil => rfl
  | cons x t ih =>
    by_cases hx : q x = true
    · rw [List.insertionSort,
        filter_orderedInsert_pos q x _ (fun y hy => hq x y hx hy) hx,
        List.filter_cons_of_pos hx, ih]
    · have hx' : q x = false := by
        cases hqx : q x
        · rfl
        · exact absurd hqx hx
      rw [List.insertionSort, filter_orderedInsert_neg q x _ hx',
        List.filter_cons_of_neg (by simp [hx']), ih]

/-! ### Column constants (lines 20–47 of `csv_merger.py`) -/

theorem cols_sortByReqId (df : DF) : (sortByReqId df).cols = df.cols := by
  unfold sortByReqId
  split <;> rfl

theorem mem_rows_sortByReqId {df : DF} {r : Row}
    (h : r ∈ (sortByReqId df).rows) : r ∈ df.rows := by
  unfold sortByReqId at h
  by_cases hc : "req_id" ∈ df.cols
  · simp only [hc, if_true] at h
    exact (List.perm_insertionSort rowLe df.rows).subset h
  · simpa [hc] using h

theorem length_rows_sortByReqId (df : DF) :
    (sortByReqId df).rows.length = df.rows.length := by
  unfold sortByReqId
  by_cases hc : "req_id" ∈ df.cols
  · simp only [hc, if_true]
    exact (List.perm_insertionSort rowLe df.rows).length_eq
  · simp [hc]

/-! ### Lemmas on suffixed column names and merged rows -/

theorem aget_map_fn {xs : List String} {f : String → String} {v : String → Cell}
    {t c₀ : String} (h : ∀ x ∈ xs, f x = t ↔ x = c₀) (hmem : c₀ ∈ xs) :
    aget (xs.map (fun c => (f c, v c))) t = v c₀ := by
  induction xs with
  | nil => simp at hmem
  | cons x rest ih =>
    have hx := h x (by simp)
    by_cases he : f x = t
    · have hxc : x = c₀ := hx.mp he
      subst hxc
      simp [aget, he]
    · have hne : x ≠ c₀ := fun hc => he (hx.mpr hc)
      rcases List.mem_cons.mp hmem with rfl | hmem'
      · exact absurd rfl hne
      · simpa [aget, he] using ih (fun y hy => h y (by simp [hy])) hmem'

theorem append_ne_of_not_suffix {x t c : String}
    (h : ¬ t.data.IsSuffix c.data) : x ++ t ≠ c := by
  intro he
  apply h
  refine ⟨x.data, ?_⟩
  rw [← String.data_append, he]

theorem suffix_ne_common {x suf c : String}
    (hsuf : suf = "_ja" ∨ suf = "_en") (hc : c ∈ COMMON_COLS) : x ++ suf ≠ c := by
  simp only [COMMON_COLS, List.mem_cons, List.not_mem_nil, or_false] at hc
  rcases hsuf with rfl | rfl <;>
    rcases hc with rfl | rfl | rfl | rfl | rfl | rfl | rfl | rfl <;>
      exact append_ne_of_not_suffix (by decide)

theorem suffixFn_eq_iff {ks other : List String} {suf c₀ : String}
    (hsuf : suf = "_ja" ∨ suf = "_en") (hsub : ∀ k ∈ ks, k ∈ COMMON_COLS)
    (hc₀ : c₀ ∈ ks) :
    ∀ x, suffixFn ks other suf x = c₀ ↔ x = c₀ := by
  intro x
  constructor
  · unfold suffixFn
    split
    · intro h
      exact absurd h (suffix_ne_common hsuf (hsub _ hc₀))
    · exact id
  · rintro rfl
    simp [suffixFn, hc₀]

theorem count_flatMap {α β : Type} [BEq β] (l : List α) (g : α → List β)
    (b : β) :
    (l.flatMap g).count b = (l.map (fun a => (g a).count b)).sum := by
  induction l with
  | nil => rfl
  | cons x t ih => simp [List.count_append, ih]

theorem sum_indicator_eq_count {α : Type} (l : List α) (f : α → Cell) (v : Cell) :
    (l.map (fun a => if f a = v then 1 else 0)).sum = (l.map f).count v := by
  induction l with
  | nil => rfl
  | cons x t ih =>
    by_cases h : f x = v
    · simp [h, ih, List.count_cons, Nat.add_comm]
    · simp [h, ih, List.count_cons]

theorem length_filter_eq_count_map {α : Type} (l : List α) (f : α → Cell)
    (v : Cell) :
    (l.filter (fun a => decide (f a = v))).length = (l.map f).count v := by
  induction l with
  | nil => rfl
  | cons x t ih => by_cases h : f x = v <;> simp [h, ih, List.count_cons]

theorem cell_count_eq_one_of_mem {l : List Cell} {v : Cell}
    (hN : l.Nodup) (hmem : v ∈ l) : l.count v = 1 := by
  induction l with
  | nil => simp at hmem
  | cons x t ih =>
    rcases List.mem_cons.mp hmem with rfl | hmem2
    · rw [List.count_cons_self, List.count_eq_zero.mpr (List.nodup_cons.mp hN).1]
    · have hne : v ≠ x := by
        rintro rfl
        exact (List.nodup_cons.mp hN).1 hmem2
      rw [List.count_cons_of_ne hne]
      exact ih (List.nodup_cons.mp hN).2 hmem2

theorem count_filter_of_imp {α : Type} (l : List α) (p : α → Bool) (f : α → Cell)
    (v : Cell) (h : ∀ a ∈ l, f a = v → p a = true) :
    ((l.filter p).map f).count v = (l.map f).count v := by
  induction l with
  | nil => rfl
  | cons x t ih =>
    have ht := ih (fun a ha hfa => h a (by simp [ha]) hfa)
    by_cases hp : p x = true
    · by_cases hv : f x = v <;> simp [List.filter_cons, hp, hv, List.count_cons, ht]
    · have hv : ¬ f x = v := fun hv => hp (h x (by simp) hv)
      simp [List.filter_cons, hp, hv, List.count_cons, ht]

theorem aget_rowRename_key {other : List String} {ks : List String} {suf : String}
    (hsuf : suf = "_ja" ∨ suf = "_en") (hsub : ∀ k ∈ ks, k ∈ COMMON_COLS)
    (hReq : "req_id" ∈ ks) (lr : Row) :
    aget (rowRename (suffixFn ks other suf) lr) "req_id" = aget lr "req_id" := by
  unfold rowRename
  exact aget_map_rename (fun k _ => suffixFn_eq_iff hsuf hsub hReq k)

theorem mem_keys_rowRename {other ks : List String} {suf : String}
    (hsuf : suf = "_ja" ∨ suf = "_en") (hsub : ∀ k ∈ ks, k ∈ COMMON_COLS)
    (hReq : "req_id" ∈ ks) {lr : Row} (hmem : "req_id" ∈ lr.map Prod.fst) :
    "req_id" ∈ (rowRename (suffixFn ks other suf) lr).map Prod.fst := by
  obtain ⟨p, hp, hp1⟩ := List.mem_map.mp hmem
  unfold rowRename
  refine List.mem_map.mpr ⟨(suffixFn ks other suf p.1, p.2), List.mem_map.mpr ⟨p, hp, rfl⟩, ?_⟩
  simp only
  rw [hp1]
  exact (suffixFn_eq_iff hsuf hsub hReq "req_id").mpr rfl

theorem aget_combineRow_req_id {l r : DF} {ks : List String} {lsuf rsuf : String}
    (hlsuf : lsuf = "_ja" ∨ lsuf = "_en")
    (hsub : ∀ k ∈ ks, k ∈ COMMON_COLS) (hReq : "req_id" ∈ ks)
    {lr : Row} (hkeys : lr.map Prod.fst = l.cols) (hcol : "req_id" ∈ l.cols)
    (rr : Row) :
    aget (combineRow l r ks lsuf rsuf lr rr) "req_id" = aget lr "req_id" := by
  unfold combineRow
  rw [aget_append_left _ (mem_keys_rowRename hlsuf hsub hReq (by rw [hkeys]; exact hcol))]
  exact aget_rowRename_key hlsuf hsub hReq lr

theorem aget_leftOnlyRow_req_id {l r : DF} {ks : List String} {lsuf rsuf : String}
    (hlsuf : lsuf = "_ja" ∨ lsuf = "_en")
    (hsub : ∀ k ∈ ks, k ∈ COMMON_COLS) (hReq : "req_id" ∈ ks)
    {lr : Row} (hkeys : lr.map Prod.fst = l.cols) (hcol : "req_id" ∈ l.cols) :
    aget (leftOnlyRow l r ks lsuf rsuf lr) "req_id" = aget lr "req_id" := by
  unfold leftOnlyRow
  rw [aget_append_left _ (mem_keys_rowRename hlsuf hsub hReq (by rw [hkeys]; exact hcol))]
  exact aget_rowRename_key hlsuf hsub hReq lr

theorem aget_rightOnlyRow_req_id {l r : DF} {ks : List String} {lsuf rsuf : String}
    (hlsuf : lsuf = "_ja" ∨ lsuf = "_en")
    (hsub : ∀ k ∈ ks, k ∈ COMMON_COLS) (hReq : "req_id" ∈ ks)
    (hcol : "req_id" ∈ l.cols) (rr : Row) :
    aget (rightOnlyRow l r ks lsuf rsuf rr) "req_id" = aget rr "req_id" := by
  unfold rightOnlyRow
  rw [aget_append_left]
  · rw [aget_map_fn (fun x _ => suffixFn_eq_iff hlsuf hsub hReq x) hcol]
    simp [hReq]
  · refine List.mem_map.mpr ⟨(suffixFn ks r.cols lsuf "req_id",
      if "req_id" ∈ ks then aget rr "req_id" else none), ?_, ?_⟩
    · exact List.mem_map.mpr ⟨"req_id", hcol, rfl⟩
    · simp only
      exact (suffixFn_eq_iff hlsuf hsub hReq "req_id").mpr rfl

theorem suffixFn_of_mem {ks other : List String} {suf c : String} (hc : c ∈ ks) :
    suffixFn ks other suf c = c := by
  simp [suffixFn, hc]

theorem keys_rowRename (f : String → String) (r : Row) :
    (rowRename f r).map Prod.fst = (r.map Prod.fst).map f := by
  unfold rowRename
  rw [List.map_map, List.map_map]
  rfl

theorem keys_filter_not_ks (ks : List String) (rr : Row) :
    (rr.filter (fun p => decide (p.1 ∉ ks))).map Prod.fst
      = (rr.map Prod.fst).filter (fun c => decide (c ∉ ks)) := by
  induction rr with
  | nil => rfl
  | cons p t ih =>
    by_cases hp : p.1 ∉ ks <;> simpa [List.filter_cons, hp] using ih

theorem aget_filter_not_ks {ks : List String} {r : Row} {c : String}
    (hc : c ∉ ks) :
    aget (r.filter (fun p => decide (p.1 ∉ ks))) c = aget r c := by
  induction r with
  | nil => rfl
  | cons p t ih =>
    obtain ⟨k, v⟩ := p
    by_cases hp : k ∉ ks
    · by_cases hk : k = c
      · subst hk
        simp [List.filter_cons, hp, aget]
      · simpa [List.filter_cons, hp, aget, hk] using ih
    · have hk : ¬ k = c := by
        rintro rfl
        simp only [not_not] at hp
        exact hc hp
      simpa [List.filter_cons, hp, aget, hk] using ih

theorem map_nodup_preimage_iff {xs : List String} {f : String → String}
    (hn : (xs.map f).Nodup) {c₀ : String} (hc₀ : c₀ ∈ xs) :
    ∀ x ∈ xs, f x = f c₀ ↔ x = c₀ :=
  fun x hx => ⟨fun h => List.inj_on_of_nodup_map hn hx hc₀ h, fun h => h ▸ rfl⟩

theorem not_mem_map_suffixFn {ks other xs : List String} {suf c : String}
    (hcks : c ∉ ks)
    (hno : ¬ ∃ c₀, c₀ ∈ xs ∧ c₀ ∉ ks ∧ suffixFn ks other suf c₀ = c) :
    c ∉ xs.map (suffixFn ks other suf) := by
  intro hmem
  obtain ⟨c₀, hc₀, he⟩ := List.mem_map.mp hmem
  by_cases hk : c₀ ∈ ks
  · rw [suffixFn_of_mem hk] at he
    exact hcks (he ▸ hk)
  · exact hno ⟨c₀, hc₀, hk, he⟩

/-- Matched rows of the two merge directions carry the same cells under the
same column names. -/
theorem aget_combineRow_comm {l r : DF} {ks : List String} {lsuf rsuf : String}
    (hlsuf : lsuf = "_ja" ∨ lsuf = "_en") (hrsuf : rsuf = "_ja" ∨ rsuf = "_en")
    (hsub : ∀ k ∈ ks, k ∈ COMMON_COLS)
    (hksl : ∀ k ∈ ks, k ∈ l.cols) (hksr : ∀ k ∈ ks, k ∈ r.cols)
    {lr rr : Row} (hlkeys : lr.map Prod.fst = l.cols)
    (hrkeys : rr.map Prod.fst = r.cols)
    (hkeq : keyTuple ks rr = keyTuple ks lr)
    (hn1 : (l.cols.map (suffixFn ks r.cols lsuf)
      ++ (r.cols.filter (fun c => decide (c ∉ ks))).map (suffixFn ks l.cols rsuf)).Nodup)
    (hn2 : (r.cols.map (suffixFn ks l.cols rsuf)
      ++ (l.cols.filter (fun c => decide (c ∉ ks))).map (suffixFn ks r.cols lsuf)).Nodup)
    (c : String) :
    aget (combineRow l r ks lsuf rsuf lr rr) c
      = aget (combineRow r l ks rsuf lsuf rr lr) c := by
  unfold combineRow rNonKeyOf
  set lF := suffixFn ks r.cols lsuf with hlF
  set rF := suffixFn ks l.cols rsuf with hrF
  have hkeyseq : ∀ k ∈ ks, aget rr k = aget lr k :=
    fun k hk => List.map_inj_left.mp (by simpa [keyTuple] using hkeq) k hk
  have hkeys1 : (rowRename lF lr).map Prod.fst = l.cols.map lF := by
    rw [keys_rowRename, hlkeys]
  have hkeys2 : (rowRename rF rr).map Prod.fst = r.cols.map rF := by
    rw [keys_rowRename, hrkeys]
  have hkeyslnk : (rowRename lF (lr.filter (fun p => decide (p.1 ∉ ks)))).map Prod.fst
      = (l.cols.filter (fun c => decide (c ∉ ks))).map lF := by
    rw [keys_rowRename, keys_filter_not_ks, hlkeys]
  have hkeysrnk : (rowRename rF (rr.filter (fun p => decide (p.1 ∉ ks)))).map Prod.fst
      = (r.cols.filter (fun c => decide (c ∉ ks))).map rF := by
    rw [keys_rowRename, keys_filter_not_ks, hrkeys]
  by_cases hcks : c ∈ ks
  · have hiff1 := @suffixFn_eq_iff ks r.cols lsuf c hlsuf hsub hcks
    have hiff2 := @suffixFn_eq_iff ks l.cols rsuf c hrsuf hsub hcks
    rw [aget_append_left _ (by
        rw [hkeys1]
        exact List.mem_map.mpr ⟨c, hksl c hcks, (hiff1 c).mpr rfl⟩),
      aget_append_left _ (by
        rw [hkeys2]
        exact List.mem_map.mpr ⟨c, hksr c hcks, (hiff2 c).mpr rfl⟩)]
    unfold rowRename
    rw [aget_map_rename (fun k _ => hiff1 k), aget_map_rename (fun k _ => hiff2 k)]
    exact (hkeyseq c hcks).symm
  · by_cases ha : ∃ c₀, c₀ ∈ l.cols ∧ c₀ ∉ ks ∧ lF c₀ = c
    · obtain ⟨c₀, hc₀l, hc₀ks, rfl⟩ := ha
      have hinjl : ∀ x ∈ l.cols, lF x = lF c₀ ↔ x = c₀ :=
        map_nodup_preimage_iff hn1.of_append_left hc₀l
      have e1 : aget (rowRename lF lr) (lF c₀) = aget lr c₀ := by
        unfold rowRename
        exact aget_map_rename (fun k hk => hinjl k (by rw [hlkeys] at hk; exact hk))
      have e2 : aget (rowRename lF (lr.filter (fun p => decide (p.1 ∉ ks)))) (lF c₀)
          = aget lr c₀ := by
        unfold rowRename
        rw [aget_map_rename (fun k hk => hinjl k ?_)]
        · exact aget_filter_not_ks hc₀ks
        · rw [keys_filter_not_ks, hlkeys] at hk
          exact (List.mem_filter.mp hk).1
      have hnotin2 : lF c₀ ∉ (rowRename rF rr).map Prod.fst := by
        rw [hkeys2]
        have hdisj := List.disjoint_of_nodup_append hn2
        intro hmem
        exact hdisj hmem (List.mem_map.mpr
          ⟨c₀, List.mem_filter.mpr ⟨hc₀l, by simpa using hc₀ks⟩, rfl⟩)
      rw [aget_append_left _ (by rw [hkeys1]; exact List.mem_map.mpr ⟨c₀, hc₀l, rfl⟩),
        e1, aget_append_right _ hnotin2, e2]
    · by_cases hb : ∃ c₀, c₀ ∈ r.cols ∧ c₀ ∉ ks ∧ rF c₀ = c
      · obtain ⟨c₀, hc₀r, hc₀ks, rfl⟩ := hb
        have hinjr : ∀ x ∈ r.cols, rF x = rF c₀ ↔ x = c₀ :=
          map_nodup_preimage_iff hn2.of_append_left hc₀r
        have e1 : aget (rowRename rF rr) (rF c₀) = aget rr c₀ := by
          unfold rowRename
          exact aget_map_rename (fun k hk => hinjr k (by rw [hrkeys] at hk; exact hk))
        have e2 : aget (rowRename rF (rr.filter (fun p => decide (p.1 ∉ ks)))) (rF c₀)
            = aget rr c₀ := by
          unfold rowRename
          rw [aget_map_rename (fun k hk => hinjr k ?_)]
          · exact aget_filter_not_ks hc₀ks
          · rw [keys_filter_not_ks, hrkeys] at hk
            exact (List.mem_filter.mp hk).1
        have hnotin1 : rF c₀ ∉ (rowRename lF lr).map Prod.fst := by
          rw [hkeys1]
          exact not_mem_map_suffixFn hcks ha
        rw [aget_append_right _ hnotin1, e2,
          aget_append_left _ (by rw [hkeys2]; exact List.mem_map.mpr ⟨c₀, hc₀r, rfl⟩), e1]
      · have hnotin1 : c ∉ (rowRename lF lr).map Prod.fst := by
          rw [hkeys1]
          exact not_mem_map_suffixFn hcks ha
        have hnotin1' : c ∉ (rowRename rF
            (rr.filter (fun p => decide (p.1 ∉ ks)))).map Prod.fst := by
          rw [hkeysrnk]
          intro hmem
          obtain ⟨c₀, hc₀, he⟩ := List.mem_map.mp hmem
          have hf := List.mem_filter.mp hc₀
          exact hb ⟨c₀, hf.1, by simpa using hf.2, he⟩
        have hnotin2 : c ∉ (rowRename rF rr).map Prod.fst := by
          rw [hkeys2]
          exact not_mem_map_suffixFn hcks hb
        have hnotin2' : c ∉ (rowRename lF
            (lr.filter (fun p => decide (p.1 ∉ ks)))).map Prod.fst := by
          rw [hkeyslnk]
          intro hmem
          obtain ⟨c₀, hc₀, he⟩ := List.mem_map.mp hmem
          have hf := List.mem_filter.mp hc₀
          exact ha ⟨c₀, hf.1, by simpa using hf.2, he⟩
        rw [aget_append_right _ hnotin1, aget_append_right _ hnotin2,
          aget_eq_none_of_not_mem hnotin1', aget_eq_none_of_not_mem hnotin2']

/-- An unmatched left row of one direction and the corresponding unmatched
right row of the other direction carry the same cells. -/
theorem aget_leftOnly_rightOnly {l r : DF} {ks : List String} {lsuf rsuf : String}
    (hlsuf : lsuf = "_ja" ∨ lsuf = "_en") (hrsuf : rsuf = "_ja" ∨ rsuf = "_en")
    (hsub : ∀ k ∈ ks, k ∈ COMMON_COLS)
    (hksl : ∀ k ∈ ks, k ∈ l.cols) (hksr : ∀ k ∈ ks, k ∈ r.cols)
    {lr : Row} (hlkeys : lr.map Prod.fst = l.cols)
    (hn1 : (l.cols.map (suffixFn ks r.cols lsuf)
      ++ (r.cols.filter (fun c => decide (c ∉ ks))).map (suffixFn ks l.cols rsuf)).Nodup)
    (hn2 : (r.cols.map (suffixFn ks l.cols rsuf)
      ++ (l.cols.filter (fun c => decide (c ∉ ks))).map (suffixFn ks r.cols lsuf)).Nodup)
    (c : String) :
    aget (leftOnlyRow l r ks lsuf rsuf lr) c
      = aget (rightOnlyRow r l ks rsuf lsuf lr) c := by
  unfold leftOnlyRow rightOnlyRow rNonKeyOf
  set lF := suffixFn ks r.cols lsuf with hlF
  set rF := suffixFn ks l.cols rsuf with hrF
  have hkeys1 : (rowRename lF lr).map Prod.fst = l.cols.map lF := by
    rw [keys_rowRename, hlkeys]
  have hkeyslnk : (rowRename lF (lr.filter (fun p => decide (p.1 ∉ ks)))).map Prod.fst
      = (l.cols.filter (fun c => decide (c ∉ ks))).map lF := by
    rw [keys_rowRename, keys_filter_not_ks, hlkeys]
  by_cases hcks : c ∈ ks
  · have hiff1 := @suffixFn_eq_iff ks r.cols lsuf c hlsuf hsub hcks
    have hiff2 := @suffixFn_eq_iff ks l.cols rsuf c hrsuf hsub hcks
    rw [aget_append_left _ (by
        rw [hkeys1]
        exact List.mem_map.mpr ⟨c, hksl c hcks, (hiff1 c).mpr rfl⟩),
      aget_append_left _ (List.mem_map.mpr
        ⟨(rF c, if c ∈ ks then aget lr c else none),
          List.mem_map.mpr ⟨c, hksr c hcks, rfl⟩, (hiff2 c).mpr rfl⟩)]
    unfold rowRename
    rw [aget_map_rename (fun k _ => hiff1 k),
      aget_map_fn (fun x _ => hiff2 x) (hksr c hcks)]
    simp [hcks]
  · by_cases ha : ∃ c₀, c₀ ∈ l.cols ∧ c₀ ∉ ks ∧ lF c₀ = c
    · obtain ⟨c₀, hc₀l, hc₀ks, rfl⟩ := ha
      have hinjl : ∀ x ∈ l.cols, lF x = lF c₀ ↔ x = c₀ :=
        map_nodup_preimage_iff hn1.of_append_left hc₀l
      have e1 : aget (rowRename lF lr) (lF c₀) = aget lr c₀ := by
        unfold rowRename
        exact aget_map_rename (fun k hk => hinjl k (by rw [hlkeys] at hk; exact hk))
      have e2 : aget (rowRename lF (lr.filter (fun p => decide (p.1 ∉ ks)))) (lF c₀)
          = aget lr c₀ := by
        unfold rowRename
        rw [aget_map_rename (fun k hk => hinjl k ?_)]
        · exact aget_filter_not_ks hc₀ks
        · rw [keys_filter_not_ks, hlkeys] at hk
          exact (List.mem_filter.mp hk).1
      have hnotin2 : lF c₀ ∉ (r.cols.map
          (fun x => (rF x, if x ∈ ks then aget lr x else none))).map Prod.fst := by
        have hkeysx : (r.cols.map
            (fun x => (rF x, if x ∈ ks then aget lr x else none))).map Prod.fst
            = r.cols.map rF := by
          rw [List.map_map]
          rfl
        rw [hkeysx]
        have hdisj := List.disjoint_of_nodup_append hn2
        intro hmem
        exact hdisj hmem (List.mem_map.mpr
          ⟨c₀, List.mem_filter.mpr ⟨hc₀l, by simpa using hc₀ks⟩, rfl⟩)
      rw [aget_append_left _ (by rw [hkeys1]; exact List.mem_map.mpr ⟨c₀, hc₀l, rfl⟩),
        e1, aget_append_right _ hnotin2, e2]
    · by_cases hb : ∃ c₀, c₀ ∈ r.cols ∧ c₀ ∉ ks ∧ rF c₀ = c
      · obtain ⟨c₀, hc₀r, hc₀ks, rfl⟩ := hb
        have hinjr : ∀ x ∈ r.cols, rF x = rF c₀ ↔ x = c₀ :=
          map_nodup_preimage_iff hn2.of_append_left hc₀r
        have hnotin1 : rF c₀ ∉ (rowRename lF lr).map Prod.fst := by
          rw [hkeys1]
          exact not_mem_map_suffixFn hcks ha
        rw [aget_append_right _ hnotin1,
          aget_append_left _ (List.mem_map.mpr
            ⟨(rF c₀, if c₀ ∈ ks then aget lr c₀ else none),
              List.mem_map.mpr ⟨c₀, hc₀r, rfl⟩, rfl⟩),
          aget_map_fn (fun x hx => hinjr x hx) hc₀r]
        rw [if_neg hc₀ks]
        refine aget_all_none ?_ _
        intro p hp
        obtain ⟨c', _, rfl⟩ := List.mem_map.mp hp
        rfl
      · have hnotin1 : c ∉ (rowRename lF lr).map Prod.fst := by
          rw [hkeys1]
          exact not_mem_map_suffixFn hcks ha
        have hnotin1' : c ∉ ((r.cols.filter (fun x => decide (x ∉ ks))).map
            (fun x => (rF x, (none : Cell)))).map Prod.fst := by
          intro hmem
          obtain ⟨p, hp, hpe⟩ := List.mem_map.mp hmem
          obtain ⟨c₀, hc₀, rfl⟩ := List.mem_map.mp hp
          have hf := List.mem_filter.mp hc₀
          exact hb ⟨c₀, hf.1, by simpa using hf.2, hpe⟩
        have hnotin2 : c ∉ (r.cols.map
            (fun x => (rF x, if x ∈ ks then aget lr x else none))).map Prod.fst := by
          have hkeysx : (r.cols.map
              (fun x => (rF x, if x ∈ ks then aget lr x else none))).map Prod.fst
              = r.cols.map rF := by
            rw [List.map_map]
            rfl
          rw [hkeysx]
          exact not_mem_map_suffixFn hcks hb
        have hnotin2' : c ∉ (rowRename lF
            (lr.filter (fun p => decide (p.1 ∉ ks)))).map Prod.fst := by
          rw [hkeyslnk]
          intro hmem
          obtain ⟨c₀, hc₀, he⟩ := List.mem_map.mp hmem
          have hf := List.mem_filter.mp hc₀
          exact ha ⟨c₀, hf.1, by simpa using hf.2, he⟩
        rw [aget_append_right _ hnotin1, aget_append_right _ hnotin2,
          aget_eq_none_of_not_mem hnotin1', aget_eq_none_of_not_mem hnotin2']

/-! ### Claim C1 -/

/-- C1: for every string matching `V(\d+)\.(\d+)\.(\d+)` (with the regex's
own `re.match` semantics) the parser returns the three captured groups as
integers, in order; for a missing/non-string input and for every string that
fails to match it returns the sentinel; and the sentinel compares strictly
greater than every well-formed integer triple.  The parser is a total
function — it never throws. -/
theorem C1_parse_req_id_spec :
    (∀ (s : String) (da db dc rest : List Char), MatchesV s.data da db dc rest →
        parse_req_id (some s) = .fin (digitsVal da) (digitsVal db) (digitsVal dc)) ∧
    (∀ s : String, (¬ ∃ da db dc rest, MatchesV s.data da db dc rest) →
        parse_req_id (some s) = .inf) ∧
    parse_req_id none = .inf ∧
    (∀ a b c : Nat, SortKey.lt (.fin a b c) .inf = true) := by
  refine ⟨?_, ?_, rfl, fun a b c => rfl⟩
  · intro s da db dc rest h
    simp [parse_req_id, matchV_of_matches h]
  · intro s h
    rcases hm : matchV s.data with _ | ⟨a, b, c⟩
    · simp [parse_req_id, hm]
    · obtain ⟨da, db, dc, rest, hmat, -⟩ := matches_of_matchV hm
      exact absurd ⟨da, db, dc, rest, hmat⟩ h

/-- Witness for C1: a well-formed identifier parses to its triple, a
malformed string gets the sentinel. -/
theorem C1_parse_req_id_spec_witness :
    parse_req_id (some "V4.0.2") =
      SortKey.fin (digitsVal ['4']) (digitsVal ['0']) (digitsVal ['2']) ∧
    parse_req_id (some "x1.2.3") = SortKey.inf := by
  constructor
  · exact C1_parse_req_id_spec.1 "V4.0.2" ['4'] ['0'] ['2'] [] (by decide)
  · refine C1_parse_req_id_spec.2.1 "x1.2.3" ?_
    rintro ⟨da, db, dc, rest, hm⟩
    have h2 := matchV_of_matches hm
    rw [show matchV "x1.2.3".data = none by decide] at h2
    exact Option.noConfusion h2

/-! ### Claim C9 -/

/-- C9 (implicit): the pattern is matched as a prefix only — whatever tail
follows `V<digits>.<digits>.<digits>` (as long as the third group stays
maximal), the parser returns the triple of the matched prefix, never the
sentinel, so such strings sort among the well-formed identifiers. -/
theorem C9_prefix_match (da db dc rest : List Char)
    (hda : DigitRun da) (hdb : DigitRun db) (hdc : DigitRun dc)
    (hrest : ∀ c, rest.head? = some c → c.isDigit = false) :
    parse_req_id (some (String.mk ('V' :: (da ++ '.' :: (db ++ '.' :: (dc ++ rest)))))) =
      .fin (digitsVal da) (digitsVal db) (digitsVal dc) ∧
    parse_req_id (some (String.mk ('V' :: (da ++ '.' :: (db ++ '.' :: (dc ++ rest)))))) ≠
      .inf := by
  have hm : MatchesV ('V' :: (da ++ '.' :: (db ++ '.' :: (dc ++ rest)))) da db dc rest :=
    ⟨rfl, hda, hdb, hdc, hrest⟩
  have h := matchV_of_matches hm
  constructor
  · simp [parse_req_id, h]
  · simp [parse_req_id, h]

/-- Witness for C9: "V1.2.3x" and "V1.2.3.4" parse to the triple (1, 2, 3)
rather than the sentinel. -/
theorem C9_prefix_match_witness :
    parse_req_id (some "V1.2.3x") = SortKey.fin 1 2 3 ∧
    parse_req_id (some "V1.2.3.4") = SortKey.fin 1 2 3 := by
  constructor
  · exact (C9_prefix_match ['1'] ['2'] ['3'] ['x']
      (by decide) (by decide) (by decide) (by decide)).1
  · exact (C9_prefix_match ['1'] ['2'] ['3'] ['.', '4']
      (by decide) (by decide) (by decide) (by decide)).1

/-! ### Claim C5 -/

/-- C5: the loader returns the absent sentinel — never an exception — exactly
when the file is missing, empty, unparsable, or parses to a table whose
trimmed columns lack `req_id`; in the missing-`req_id` case an error is
logged. -/
theorem C5_loader_absent (f : FsFile) (lang : String) :
    ((load_and_prepare_csv f lang).1 = none ↔
      (f.isFile = false ∨ f.size = 0 ∨ f.parse = none ∨
        ∃ raw, f.parse = some raw ∧ "req_id" ∉ raw.cols.map strTrim)) ∧
    (∀ raw, f.parse = some raw → "req_id" ∉ raw.cols.map strTrim →
      f.isFile = true → f.size ≠ 0 →
      ("Error: req_id column missing in " ++ f.path) ∈ (load_and_prepare_csv f lang).2) := by
  constructor
  · by_cases h1 : f.isFile = false ∨ f.size = 0
    · have hL : (load_and_prepare_csv f lang).1 = none := by
        simp [load_and_prepare_csv, h1]
      rw [hL]
      refine ⟨fun _ => ?_, fun _ => rfl⟩
      rcases h1 with h | h
      · exact Or.inl h
      · exact Or.inr (Or.inl h)
    · push_neg at h1
      rcases hp : f.parse with _ | raw
      · have hL : (load_and_prepare_csv f lang).1 = none := by
          simp [load_and_prepare_csv, h1.1, h1.2, hp]
        rw [hL]
        exact ⟨fun _ => Or.inr (Or.inr (Or.inl rfl)), fun _ => rfl⟩
      · by_cases h2 : "req_id" ∈ (trimDF raw).cols
        · have h2' : "req_id" ∈ raw.cols.map strTrim := by simpa [trimDF] using h2
          have hL : (load_and_prepare_csv f lang).1 = some (renameDF lang (trimDF raw)) := by
            simp [load_and_prepare_csv, h1.1, h1.2, hp, h2]
          rw [hL]
          constructor
          · intro hfalse
            exact Option.noConfusion hfalse
          · rintro (ha | hb | hc | ⟨raw', hpr, hmiss⟩)
            · exact absurd ha h1.1
            · exact absurd hb h1.2
            · exact Option.noConfusion hc
            · obtain rfl : raw = raw' := Option.some.inj hpr
              exact absurd h2' hmiss
        · have h2' : "req_id" ∉ raw.cols.map strTrim := by simpa [trimDF] using h2
          have hL : (load_and_prepare_csv f lang).1 = none := by
            simp [load_and_prepare_csv, h1.1, h1.2, hp, h2]
          rw [hL]
          exact ⟨fun _ => Or.inr (Or.inr (Or.inr ⟨raw, rfl, h2'⟩)), fun _ => rfl⟩
  · intro raw hp hmiss hfile hsz
    have h1 : ¬ (f.isFile = false ∨ f.size = 0) := by simp [hfile, hsz]
    have h2 : "req_id" ∉ (trimDF raw).cols := by simpa [trimDF] using hmiss
    simp [load_and_prepare_csv, h1, hfile, hsz, hp, h2]

/-- Witness for C5: a present, non-empty file parsing to a table without a
`req_id` column yields the absent sentinel and the logged error. -/
theorem C5_loader_absent_witness :
    ((load_and_prepare_csv ⟨true, 5, some ⟨["foo"], []⟩, "p.csv"⟩ "en").1 = none ↔
      ((true : Bool) = false ∨ (5 : Nat) = 0 ∨
        (some (DF.mk ["foo"] []) : Option DF) = none ∨
        ∃ raw, (some (DF.mk ["foo"] []) : Option DF) = some raw ∧
          "req_id" ∉ raw.cols.map strTrim)) ∧
    ("Error: req_id column missing in " ++ "p.csv") ∈
      (load_and_prepare_csv ⟨true, 5, some ⟨["foo"], []⟩, "p.csv"⟩ "en").2 := by
  constructor
  · exact (C5_loader_absent ⟨true, 5, some ⟨["foo"], []⟩, "p.csv"⟩ "en").1
  · exact (C5_loader_absent ⟨true, 5, some ⟨["foo"], []⟩, "p.csv"⟩ "en").2
      ⟨["foo"], []⟩ rfl (by decide) rfl (by decide)

/-! ### Claim C6 -/

/-- C6: when both sides are present but `req_id` is not in the intersection of
the two column sets with `COMMON_COLS`, the merge aborts: no merged table, no
fallback to a single table, no output written. -/
theorem C6_req_id_missing_aborts (ja en : DF)
    (h : "req_id" ∉ commonKeys ja en) :
    mergedTable (some ja) (some en) = none ∧
    mergeFromLoaded (some ja) (some en) = none := by
  constructor
  · simp [mergedTable, h]
  · simp [mergeFromLoaded, mergedTable, h]

/-- Witness for C6: two tables sharing no common columns with `req_id`. -/
theorem C6_req_id_missing_aborts_witness :
    mergedTable (some (DF.mk ["foo"] [])) (some (DF.mk ["foo"] [])) = none :=
  (C6_req_id_missing_aborts ⟨["foo"], []⟩ ⟨["foo"], []⟩ (by decide)).1

/-! ### Claim C7 -/

/-- C7: when neither table loads, `merge_csv_files` reports the fatal error
and writes no output file (the sorting, projection and persistence code is
only reached with a merged table in hand). -/
theorem C7_both_absent_fatal (fja fen : FsFile)
    (h1 : (load_and_prepare_csv fja "ja").1 = none)
    (h2 : (load_and_prepare_csv fen "en").1 = none) :
    (merge_csv_files fja fen).1 = none ∧
    "Error: Neither English nor Japanese CSV could be loaded. Cannot create merged file."
      ∈ (merge_csv_files fja fen).2 := by
  constructor
  · simp [merge_csv_files, mergeFromLoaded, mergedTable, h1, h2]
  · simp [merge_csv_files, mergeStageLog, h1, h2]

/-- Witness for C7: both files missing. -/
theorem C7_both_absent_fatal_witness :
    (merge_csv_files ⟨false, 0, none, "a"⟩ ⟨false, 0, none, "b"⟩).1 = none :=
  (C7_both_absent_fatal ⟨false, 0, none, "a"⟩ ⟨false, 0, none, "b"⟩ rfl rfl).1

/-! ### Claim C4 -/

/-- C4: the sort step reorders the rows into ascending order of the parsed
integer triple — numerically, so V2.1.10 sorts after V2.1.2 and before
V2.2.1 — while keeping exactly the original rows (a permutation) and
preserving the relative order of rows with equal sort keys (stability). -/
theorem C4_sort_ascending_stable (df : DF) (h : "req_id" ∈ df.cols) :
    (sortByReqId df).rows.Perm df.rows ∧
    (sortByReqId df).rows.Pairwise
      (fun r1 r2 => SortKey.le (rowKey r1) (rowKey r2) = true) ∧
    (∀ k : SortKey,
      (sortByReqId df).rows.filter (fun r => decide (rowKey r = k)) =
        df.rows.filter (fun r => decide (rowKey r = k))) ∧
    SortKey.lt (parse_req_id (some "V2.1.2")) (parse_req_id (some "V2.1.10")) = true ∧
    SortKey.lt (parse_req_id (some "V2.1.10")) (parse_req_id (some "V2.2.1")) = true := by
  refine ⟨?_, ?_, ?_, by decide, by decide⟩
  · simp only [sortByReqId, h, if_true]
    exact List.perm_insertionSort rowLe df.rows
  · simp only [sortByReqId, h, if_true]
    exact List.sorted_insertionSort rowLe df.rows
  · intro k
    simp only [sortByReqId, h, if_true]
    refine filter_insertionSort rowLe _ df.rows ?_
    intro x y hx hy
    have hx' := of_decide_eq_true hx
    have hy' := of_decide_eq_true hy
    unfold rowLe
    rw [hx', hy']
    cases k <;> simp [SortKey.le, SortKey.lt]

/-- Witness for C4 on a two-row table (already out of order). -/
theorem C4_sort_ascending_stable_witness :
    (sortByReqId (DF.mk ["req_id"]
        [[("req_id", some "V2.1.10")], [("req_id", some "V2.1.2")]])).rows.Perm
      (DF.mk ["req_id"]
        [[("req_id", some "V2.1.10")], [("req_id", some "V2.1.2")]]).rows :=
  (C4_sort_ascending_stable _ (by decide)).1

/-! ### Claim C2 -/

/-- C2: whenever the pipeline produces an output table, the output has
exactly the 14 canonical columns, in canonical order; every canonical column
absent from the merged table reads as missing in every output row; every
column outside the canonical set is dropped; no row is lost. -/
theorem C2_canonical_projection (dja den : Option DF) (d : DF)
    (hWF : DF.WF d) (hm : mergedTable dja den = some d) :
    ∃ out, mergeFromLoaded dja den = some out ∧
      out.cols = FINAL_COLUMNS_ORDER ∧
      (∀ c ∈ FINAL_COLUMNS_ORDER, c ∉ d.cols → ∀ r ∈ out.rows, aget r c = none) ∧
      (∀ c, c ∉ FINAL_COLUMNS_ORDER → c ∉ out.cols) ∧
      out.rows.length = d.rows.length := by
  refine ⟨reindexFinal (addMissingFinalCols (sortByReqId d)),
    by simp [mergeFromLoaded, hm], rfl, ?_, ?_, ?_⟩
  · intro c hcF hcd r hr
    simp only [reindexFinal, List.mem_map] at hr
    obtain ⟨r', hr', rfl⟩ := hr
    rw [aget_map_self hcF]
    simp only [addMissingFinalCols, List.mem_map] at hr'
    obtain ⟨r0, hr0, rfl⟩ := hr'
    have hmem : r0 ∈ d.rows := mem_rows_sortByReqId hr0
    have hkeys : r0.map Prod.fst = d.cols := hWF r0 hmem
    rw [aget_append_right _ (by rw [hkeys]; exact hcd)]
    refine aget_all_none ?_ c
    intro p hp
    simp only [List.mem_map] at hp
    obtain ⟨c', -, rfl⟩ := hp
    rfl
  · intro c hc
    simpa [reindexFinal] using hc
  · simp [reindexFinal, addMissingFinalCols, length_rows_sortByReqId]

/-- Witness for C2: a single-table run (English side absent). -/
theorem C2_canonical_projection_witness :
    ∃ out, mergeFromLoaded (some (DF.mk ["req_id"] [[("req_id", some "V1.1.1")]])) none =
        some out ∧
      out.cols = FINAL_COLUMNS_ORDER ∧
      (∀ c ∈ FINAL_COLUMNS_ORDER,
        c ∉ (DF.mk ["req_id"] [[("req_id", some "V1.1.1")]]).cols →
        ∀ r ∈ out.rows, aget r c = none) ∧
      (∀ c, c ∉ FINAL_COLUMNS_ORDER → c ∉ out.cols) ∧
      out.rows.length = (DF.mk ["req_id"] [[("req_id", some "V1.1.1")]]).rows.length :=
  C2_canonical_projection (some (DF.mk ["req_id"] [[("req_id", some "V1.1.1")]])) none
    (DF.mk ["req_id"] [[("req_id", some "V1.1.1")]]) (by decide) rfl

/-! ### Claim C10 -/

/-- C10 (implicit): for every table the loader accepts, normalization only
changes column names — every name is whitespace-trimmed and at most the three
language columns are renamed to their suffixed forms; cell values and their
order, the row count, and the relative column order all match the parsed
input. -/
theorem C10_normalize_frame (f : FsFile) (lang : String) (df raw : DF)
    (hparse : f.parse = some raw)
    (hload : (load_and_prepare_csv f lang).1 = some df) :
    df.cols = raw.cols.map (fun c => renameForLang lang (strTrim c)) ∧
    df.rows.map (fun r => r.map Prod.snd) = raw.rows.map (fun r => r.map Prod.snd) ∧
    df.rows.map (fun r => r.map Prod.fst) =
      raw.rows.map (fun r => r.map (fun p => renameForLang lang (strTrim p.1))) ∧
    df.rows.length = raw.rows.length ∧
    (∀ c : String, renameForLang lang c = c ∨
      (c, renameForLang lang c) ∈
        [("chapter_name", "chapter_name_" ++ lang),
         ("section_name", "section_name_" ++ lang),
         ("req_description", "req_description_" ++ lang)]) := by
  by_cases h1 : f.isFile = false ∨ f.size = 0
  · simp [load_and_prepare_csv, h1] at hload
  by_cases h2 : "req_id" ∈ (trimDF raw).cols
  · have hdf : renameDF lang (trimDF raw) = df := by
      have hcopy := hload
      simp [load_and_prepare_csv, h1, hparse, h2] at hcopy
      exact hcopy
    subst hdf
    refine ⟨?_, ?_, ?_, ?_, ?_⟩
    · simp [renameDF, trimDF, List.map_map]
    · simp only [renameDF, trimDF, rowRename, List.map_map]
      refine List.map_congr_left ?_
      intro r hr
      simp [rowRename, List.map_map]
    · simp only [renameDF, trimDF, rowRename, List.map_map]
      refine List.map_congr_left ?_
      intro r hr
      simp [rowRename, List.map_map]
    · simp [renameDF, trimDF]
    · intro c
      unfold renameForLang
      split_ifs with ha hb hc
      · subst ha
        simp
      · subst hb
        simp
      · subst hc
        simp
      · exact Or.inl rfl
  · simp [load_and_prepare_csv, h1, hparse, h2] at hload

/-- Witness for C10: a parsable file with padded and language-specific
column names. -/
theorem C10_normalize_frame_witness :
    (load_and_prepare_csv
        ⟨true, 7, some (DF.mk ["req_id ", "chapter_name"]
          [[("req_id ", some "V1.1.1"), ("chapter_name", some "Intro")]]), "q.csv"⟩
        "ja").1 =
      some (DF.mk ["req_id", "chapter_name_ja"]
        [[("req_id", some "V1.1.1"), ("chapter_name_ja", some "Intro")]]) ∧
    (DF.mk ["req_id", "chapter_name_ja"]
        [[("req_id", some "V1.1.1"), ("chapter_name_ja", some "Intro")]]).rows.map
        (fun r => r.map Prod.snd) =
      (DF.mk ["req_id ", "chapter_name"]
        [[("req_id ", some "V1.1.1"), ("chapter_name", some "Intro")]]).rows.map
        (fun r => r.map Prod.snd) := by
  constructor
  · rfl
  · exact (C10_normalize_frame
      ⟨true, 7, some (DF.mk ["req_id ", "chapter_name"]
        [[("req_id ", some "V1.1.1"), ("chapter_name", some "Intro")]]), "q.csv"⟩
      "ja" _ _ rfl rfl).2.1

/-! ### Claim C3 -/

/-- Counterexample to C3 as stated: `req_id` is unique in each loaded table
and the merge is performed, yet `V1.1.1` appears twice among the merged rows.
The outer join is on all shared common columns — here `req_id` and `cwe` —
and the two rows disagree on `cwe`, so neither matches the other. -/
theorem C3_counterexample :
    (reqIds c3ja).Nodup ∧ (reqIds c3en).Nodup ∧
    mergedTable (some c3ja) (some c3en) =
      some (outerMerge c3ja c3en (commonKeys c3ja c3en) "_ja" "_en") ∧
    (reqIds (outerMerge c3ja c3en (commonKeys c3ja c3en) "_ja" "_en")).count
        (some "V1.1.1") = 2 ∧
    ¬ (reqIds (outerMerge c3ja c3en (commonKeys c3ja c3en) "_ja" "_en")).count
        (some "V1.1.1") = 1 :=
  ⟨by decide, by decide, by decide, by decide, by decide⟩

theorem count_matched_block {ja en : DF} {ks : List String} {lr : Row} {v : Cell}
    (hsub : ∀ k ∈ ks, k ∈ COMMON_COLS) (hReq : "req_id" ∈ ks)
    (hkeys : lr.map Prod.fst = ja.cols) (hcolja : "req_id" ∈ ja.cols)
    (hNen : (reqIds en).Nodup)
    (hkeyiff : ∀ rr ∈ en.rows,
      (keyTuple ks rr = keyTuple ks lr ↔ aget rr "req_id" = aget lr "req_id")) :
    ((if matchedRows en ks lr = [] then [leftOnlyRow ja en ks "_ja" "_en" lr]
      else (matchedRows en ks lr).map (combineRow ja en ks "_ja" "_en" lr)).map
        (fun row => aget row "req_id")).count v
      = if aget lr "req_id" = v then 1 else 0 := by
  by_cases hm : matchedRows en ks lr = []
  · rw [if_pos hm, List.map_cons, List.map_nil,
      aget_leftOnlyRow_req_id (Or.inl rfl) hsub hReq hkeys hcolja]
    by_cases hv : aget lr "req_id" = v <;> simp [List.count_cons, hv]
  · rw [if_neg hm, List.map_map]
    have hc : (matchedRows en ks lr).map
        ((fun row => aget row "req_id") ∘ combineRow ja en ks "_ja" "_en" lr)
        = (matchedRows en ks lr).map (fun _ => aget lr "req_id") :=
      List.map_congr_left (fun rr _ =>
        aget_combineRow_req_id (Or.inl rfl) hsub hReq hkeys hcolja rr)
    rw [hc, List.map_const', List.count_replicate]
    have hflt : matchedRows en ks lr
        = en.rows.filter (fun rr => decide (aget rr "req_id" = aget lr "req_id")) := by
      unfold matchedRows
      exact List.filter_congr (fun rr hrr => decide_eq_decide.mpr (hkeyiff rr hrr))
    by_cases hv : aget lr "req_id" = v
    · subst hv
      rw [if_pos (by simp), if_pos rfl]
      obtain ⟨rr₀, hrr₀⟩ := List.exists_mem_of_ne_nil _ hm
      rw [hflt] at hrr₀ ⊢
      have hmem := List.mem_filter.mp hrr₀
      have hvmem : aget lr "req_id" ∈ reqIds en :=
        List.mem_map.mpr ⟨rr₀, hmem.1, of_decide_eq_true hmem.2⟩
      rw [length_filter_eq_count_map]
      exact cell_count_eq_one_of_mem hNen hvmem
    · rw [if_neg (by simpa using hv), if_neg hv]

/-- C3 amended: the outer join is on all shared common columns, not on
`req_id` alone, so the exactly-once property needs the extra hypothesis that
any Japanese row and English row with equal `req_id` agree on the whole
join-key tuple (plus collision-free suffixed column names).  Under those
hypotheses every `req_id` value of either table appears exactly once among
the merged rows, and a merged row whose `req_id` occurs in only one
language's table has the other language's non-key columns all missing. -/
theorem C3_amended_exactly_once (ja en : DF)
    (hWFja : ja.WF) (hWFen : en.WF)
    (hReq : "req_id" ∈ commonKeys ja en)
    (hNja : (reqIds ja).Nodup) (hNen : (reqIds en).Nodup)
    (hAgree : ∀ lr ∈ ja.rows, ∀ rr ∈ en.rows,
      aget lr "req_id" = aget rr "req_id" →
      keyTuple (commonKeys ja en) lr = keyTuple (commonKeys ja en) rr)
    (hnodup : (outerMerge ja en (commonKeys ja en) "_ja" "_en").cols.Nodup) :
    (∀ v, v ∈ reqIds ja ∨ v ∈ reqIds en →
      (reqIds (outerMerge ja en (commonKeys ja en) "_ja" "_en")).count v = 1) ∧
    (∀ row ∈ (outerMerge ja en (commonKeys ja en) "_ja" "_en").rows,
      (aget row "req_id" ∉ reqIds en →
        ∀ c ∈ (en.cols.filter (fun c => decide (c ∉ commonKeys ja en))).map
            (suffixFn (commonKeys ja en) ja.cols "_en"),
          aget row c = none) ∧
      (aget row "req_id" ∉ reqIds ja →
        ∀ c ∈ ja.cols.filter (fun c => decide (c ∉ commonKeys ja en)),
          aget row (suffixFn (commonKeys ja en) en.cols "_ja" c) = none)) := by
  set ks := commonKeys ja en with hks
  set lf := suffixFn ks en.cols "_ja" with hlf
  set rf := suffixFn ks ja.cols "_en" with hrf
  have hsub : ∀ k ∈ ks, k ∈ COMMON_COLS := fun k hk => (List.mem_filter.mp hk).1
  have hcols : "req_id" ∈ ja.cols ∧ "req_id" ∈ en.cols := by
    have h := (List.mem_filter.mp hReq).2
    simpa using h
  have hcolja := hcols.1
  have hcolen := hcols.2
  have keyiff : ∀ lr ∈ ja.rows, ∀ rr ∈ en.rows,
      (keyTuple ks rr = keyTuple ks lr ↔ aget rr "req_id" = aget lr "req_id") := by
    intro lr hlr rr hrr
    constructor
    · intro h
      exact List.map_inj_left.mp (by simpa [keyTuple] using h) "req_id" hReq
    · intro h
      exact (hAgree lr hlr rr hrr h.symm).symm
  set M := outerMerge ja en ks "_ja" "_en" with hM
  set g : Row → List Row := fun lr =>
    if matchedRows en ks lr = [] then [leftOnlyRow ja en ks "_ja" "_en" lr]
    else (matchedRows en ks lr).map (combineRow ja en ks "_ja" "_en" lr) with hg
  set B0 : List Row := en.rows.filter (fun rr =>
    ja.rows.all (fun lr => decide (keyTuple ks lr ≠ keyTuple ks rr))) with hB0
  have hrows : M.rows
      = ja.rows.flatMap g ++ B0.map (rightOnlyRow ja en ks "_ja" "_en") := rfl
  have hMcols : M.cols
      = ja.cols.map lf ++ (en.cols.filter (fun c => decide (c ∉ ks))).map rf := rfl
  have hnodup' : (ja.cols.map lf
      ++ (en.cols.filter (fun c => decide (c ∉ ks))).map rf).Nodup := by
    rw [← hMcols]
    exact hnodup
  have agB : ∀ rr : Row,
      aget (rightOnlyRow ja en ks "_ja" "_en" rr) "req_id" = aget rr "req_id" :=
    fun rr => aget_rightOnlyRow_req_id (Or.inl rfl) hsub hReq hcolja rr
  constructor
  · intro v hv
    have countA : ((ja.rows.flatMap g).map (fun row => aget row "req_id")).count v
        = (reqIds ja).count v := by
      rw [List.map_flatMap, count_flatMap]
      have he : ja.rows.map (fun lr => ((g lr).map (fun row => aget row "req_id")).count v)
          = ja.rows.map (fun lr => if aget lr "req_id" = v then 1 else 0) :=
        List.map_congr_left (fun lr hlr => by
          rw [hg]
          exact count_matched_block hsub hReq (hWFja lr hlr) hcolja hNen
            (fun rr hrr => keyiff lr hlr rr hrr))
      rw [he, sum_indicator_eq_count]
      rfl
    have hBmap : (B0.map (rightOnlyRow ja en ks "_ja" "_en")).map
          (fun row => aget row "req_id")
        = B0.map (fun rr => aget rr "req_id") := by
      rw [List.map_map]
      exact List.map_congr_left (fun rr _ => agB rr)
    have hsplit : reqIds M
        = (ja.rows.flatMap g).map (fun row => aget row "req_id")
          ++ (B0.map (rightOnlyRow ja en ks "_ja" "_en")).map
              (fun row => aget row "req_id") := by
      show M.rows.map (fun row => aget row "req_id") = _
      rw [hrows, List.map_append]
    rw [hsplit, List.count_append, countA, hBmap]
    rcases Classical.em (v ∈ reqIds ja) with hmem | hnot
    · have countB : (B0.map (fun rr => aget rr "req_id")).count v = 0 := by
        rw [List.count_eq_zero]
        intro hmem'
        obtain ⟨rr, hrr, hrv⟩ := List.mem_map.mp hmem'
        rw [hB0] at hrr
        have hf := List.mem_filter.mp hrr
        obtain ⟨lr, hlr, hlv⟩ := List.mem_map.mp hmem
        have hkeq : keyTuple ks lr = keyTuple ks rr :=
          hAgree lr hlr rr hf.1 (by rw [hlv, hrv])
        have hall := List.all_eq_true.mp hf.2 lr hlr
        exact absurd hkeq (of_decide_eq_true hall)
      rw [countB, cell_count_eq_one_of_mem hNja hmem]
    · have countB : (B0.map (fun rr => aget rr "req_id")).count v
          = (reqIds en).count v := by
        rw [hB0]
        refine count_filter_of_imp en.rows _ (fun rr => aget rr "req_id") v ?_
        intro rr hrr hrv
        rw [List.all_eq_true]
        intro lr hlr
        refine decide_eq_true ?_
        intro hkeq
        apply hnot
        refine List.mem_map.mpr ⟨lr, hlr, ?_⟩
        have hcomp := List.map_inj_left.mp (by simpa [keyTuple] using hkeq) "req_id" hReq
        rw [hcomp]
        exact hrv
      rcases hv with hv | hv
      · exact absurd hv hnot
      · rw [List.count_eq_zero.mpr hnot, countB,
          cell_count_eq_one_of_mem hNen hv]
  · intro row hrow
    rw [hrows] at hrow
    rcases List.mem_append.mp hrow with hA | hB
    · obtain ⟨lr, hlr, hin⟩ := List.mem_flatMap.mp hA
      rw [hg] at hin
      simp only at hin
      by_cases hm : matchedRows en ks lr = []
      · rw [if_pos hm] at hin
        rw [List.mem_singleton] at hin
        subst hin
        constructor
        · intro hnotin c hc
          obtain ⟨c₀, hc₀, rfl⟩ := List.mem_map.mp hc
          unfold leftOnlyRow
          rw [aget_append_right]
          · refine aget_all_none ?_ _
            intro p hp
            obtain ⟨c', hc', rfl⟩ := List.mem_map.mp hp
            rfl
          · have hkeysrow : (rowRename lf lr).map Prod.fst = ja.cols.map lf := by
              unfold rowRename
              rw [List.map_map, ← hWFja lr hlr, List.map_map]
              rfl
            rw [hkeysrow]
            have hdisj := List.disjoint_of_nodup_append hnodup'
            intro hmem
            exact hdisj hmem (List.mem_map.mpr ⟨c₀, hc₀, rfl⟩)
        · intro hnotin
          exfalso
          apply hnotin
          rw [aget_leftOnlyRow_req_id (Or.inl rfl) hsub hReq (hWFja lr hlr) hcolja]
          exact List.mem_map.mpr ⟨lr, hlr, rfl⟩
      · rw [if_neg hm] at hin
        obtain ⟨rr, hrr, rfl⟩ := List.mem_map.mp hin
        unfold matchedRows at hrr
        have hfm := List.mem_filter.mp hrr
        constructor
        · intro hnotin
          exfalso
          apply hnotin
          rw [aget_combineRow_req_id (Or.inl rfl) hsub hReq (hWFja lr hlr) hcolja rr]
          have hkeq := of_decide_eq_true hfm.2
          have hcomp := List.map_inj_left.mp (by simpa [keyTuple] using hkeq) "req_id" hReq
          exact List.mem_map.mpr ⟨rr, hfm.1, hcomp⟩
        · intro hnotin
          exfalso
          apply hnotin
          rw [aget_combineRow_req_id (Or.inl rfl) hsub hReq (hWFja lr hlr) hcolja rr]
          exact List.mem_map.mpr ⟨lr, hlr, rfl⟩
    · obtain ⟨rr, hrr, rfl⟩ := List.mem_map.mp hB
      rw [hB0] at hrr
      have hf := List.mem_filter.mp hrr
      constructor
      · intro hnotin
        exfalso
        apply hnotin
        rw [agB rr]
        exact List.mem_map.mpr ⟨rr, hf.1, rfl⟩
      · intro hnotin c hc
        have hcf := List.mem_filter.mp hc
        unfold rightOnlyRow
        rw [aget_append_left]
        · have hinj : ∀ x ∈ ja.cols, lf x = lf c ↔ x = c := by
            intro x hx
            constructor
            · intro hxy
              exact List.inj_on_of_nodup_map hnodup'.of_append_left hx hcf.1 hxy
            · rintro rfl
              rfl
          rw [aget_map_fn hinj hcf.1]
          have hcks : c ∉ ks := of_decide_eq_true hcf.2
          simp [hcks]
        · refine List.mem_map.mpr ⟨(lf c, if c ∈ ks then aget rr c else none), ?_, rfl⟩
          exact List.mem_map.mpr ⟨c, hcf.1, rfl⟩

/-- Witness for the amended C3 at the spec §8 scenario (V1.1.2 exists only in
the Japanese table and appears exactly once in the merge). -/
theorem C3_amended_exactly_once_witness :
    (reqIds (outerMerge c3wja c3wen (commonKeys c3wja c3wen) "_ja" "_en")).count
      (some "V1.1.2") = 1 :=
  (C3_amended_exactly_once c3wja c3wen (by decide) (by decide) (by decide)
      (by decide) (by decide) (by decide) (by decide)).1
    (some "V1.1.2") (Or.inl (by decide))

/-! ### Claim C8 -/

theorem outerMerge_row_swap {l r : DF} {ks : List String} {lsuf rsuf : String}
    (hlsuf : lsuf = "_ja" ∨ lsuf = "_en") (hrsuf : rsuf = "_ja" ∨ rsuf = "_en")
    (hsub : ∀ k ∈ ks, k ∈ COMMON_COLS)
    (hksl : ∀ k ∈ ks, k ∈ l.cols) (hksr : ∀ k ∈ ks, k ∈ r.cols)
    (hWFl : l.WF) (hWFr : r.WF)
    (hn1 : (outerMerge l r ks lsuf rsuf).cols.Nodup)
    (hn2 : (outerMerge r l ks rsuf lsuf).cols.Nodup) :
    ∀ row ∈ (outerMerge l r ks lsuf rsuf).rows,
      ∃ row2 ∈ (outerMerge r l ks rsuf lsuf).rows, ∀ c, aget row c = aget row2 c := by
  intro row hrow
  have hn1' : (l.cols.map (suffixFn ks r.cols lsuf)
      ++ (r.cols.filter (fun c => decide (c ∉ ks))).map (suffixFn ks l.cols rsuf)).Nodup :=
    hn1
  have hn2' : (r.cols.map (suffixFn ks l.cols rsuf)
      ++ (l.cols.filter (fun c => decide (c ∉ ks))).map (suffixFn ks r.cols lsuf)).Nodup :=
    hn2
  have hrows1 : (outerMerge l r ks lsuf rsuf).rows
      = l.rows.flatMap (fun lr =>
          if matchedRows r ks lr = [] then [leftOnlyRow l r ks lsuf rsuf lr]
          else (matchedRows r ks lr).map (combineRow l r ks lsuf rsuf lr))
        ++ (r.rows.filter (fun rr =>
            l.rows.all (fun lr => decide (keyTuple ks lr ≠ keyTuple ks rr)))).map
          (rightOnlyRow l r ks lsuf rsuf) := rfl
  have hrows2 : (outerMerge r l ks rsuf lsuf).rows
      = r.rows.flatMap (fun rr =>
          if matchedRows l ks rr = [] then [leftOnlyRow r l ks rsuf lsuf rr]
          else (matchedRows l ks rr).map (combineRow r l ks rsuf lsuf rr))
        ++ (l.rows.filter (fun lr =>
            r.rows.all (fun rr => decide (keyTuple ks rr ≠ keyTuple ks lr)))).map
          (rightOnlyRow r l ks rsuf lsuf) := rfl
  rw [hrows1] at hrow
  rcases List.mem_append.mp hrow with hA | hB
  · obtain ⟨lr, hlr, hin⟩ := List.mem_flatMap.mp hA
    by_cases hm : matchedRows r ks lr = []
    · rw [if_pos hm, List.mem_singleton] at hin
      subst hin
      refine ⟨rightOnlyRow r l ks rsuf lsuf lr, ?_, ?_⟩
      · rw [hrows2]
        refine List.mem_append_right _ (List.mem_map.mpr ⟨lr, ?_, rfl⟩)
        refine List.mem_filter.mpr ⟨hlr, ?_⟩
        rw [List.all_eq_true]
        intro rr hrr
        refine decide_eq_true ?_
        intro hkeq
        have hmem : rr ∈ matchedRows r ks lr := by
          unfold matchedRows
          exact List.mem_filter.mpr ⟨hrr, decide_eq_true hkeq⟩
        rw [hm] at hmem
        exact absurd hmem (List.not_mem_nil rr)
      · exact fun c => aget_leftOnly_rightOnly hlsuf hrsuf hsub hksl hksr
          (hWFl lr hlr) hn1' hn2' c
    · rw [if_neg hm] at hin
      obtain ⟨rr, hrr, rfl⟩ := List.mem_map.mp hin
      unfold matchedRows at hrr
      have hfm := List.mem_filter.mp hrr
      refine ⟨combineRow r l ks rsuf lsuf rr lr, ?_, ?_⟩
      · rw [hrows2]
        refine List.mem_append_left _ (List.mem_flatMap.mpr ⟨rr, hfm.1, ?_⟩)
        have hne : matchedRows l ks rr ≠ [] := by
          refine List.ne_nil_of_mem (a := lr) ?_
          unfold matchedRows
          exact List.mem_filter.mpr
            ⟨hlr, decide_eq_true (of_decide_eq_true hfm.2).symm⟩
        rw [if_neg hne]
        refine List.mem_map.mpr ⟨lr, ?_, rfl⟩
        unfold matchedRows
        exact List.mem_filter.mpr
          ⟨hlr, decide_eq_true (of_decide_eq_true hfm.2).symm⟩
      · exact fun c => aget_combineRow_comm hlsuf hrsuf hsub hksl hksr
          (hWFl lr hlr) (hWFr rr hfm.1) (of_decide_eq_true hfm.2) hn1' hn2' c
  · obtain ⟨rr, hrr, rfl⟩ := List.mem_map.mp hB
    have hf := List.mem_filter.mp hrr
    refine ⟨leftOnlyRow r l ks rsuf lsuf rr, ?_, ?_⟩
    · rw [hrows2]
      refine List.mem_append_left _ (List.mem_flatMap.mpr ⟨rr, hf.1, ?_⟩)
      have hm2 : matchedRows l ks rr = [] := by
        unfold matchedRows
        rw [List.filter_eq_nil_iff]
        intro lr hlr
        have hall := List.all_eq_true.mp hf.2 lr hlr
        simpa using of_decide_eq_true hall
      rw [if_pos hm2]
      exact List.mem_singleton.mpr rfl
    · intro c
      exact (aget_leftOnly_rightOnly hrsuf hlsuf hsub hksr hksl
        (hWFr rr hf.1) hn2' hn1' c).symm

/-- C8: the outer join is commutative with respect to row content — merging
(JA, EN) with suffixes (`_ja`, `_en`) and merging (EN, JA) with the suffixes
renamed accordingly produce the same key set and the same set of merged rows
(each row read as a function from column name to cell), row order aside. -/
theorem C8_outer_join_commutative (ja en : DF)
    (hWFja : ja.WF) (hWFen : en.WF)
    (hn1 : (outerMerge ja en (commonKeys ja en) "_ja" "_en").cols.Nodup)
    (hn2 : (outerMerge en ja (commonKeys ja en) "_en" "_ja").cols.Nodup) :
    commonKeys en ja = commonKeys ja en ∧
    ∀ ρ : String → Cell,
      ((∃ row ∈ (outerMerge ja en (commonKeys ja en) "_ja" "_en").rows,
          ∀ c, aget row c = ρ c) ↔
        (∃ row ∈ (outerMerge en ja (commonKeys ja en) "_en" "_ja").rows,
          ∀ c, aget row c = ρ c)) := by
  have hck : commonKeys en ja = commonKeys ja en := by
    unfold commonKeys
    refine List.filter_congr ?_
    intro c _
    simp [Bool.and_comm]
  refine ⟨hck, ?_⟩
  intro ρ
  have hsub : ∀ k ∈ commonKeys ja en, k ∈ COMMON_COLS :=
    fun k hk => (List.mem_filter.mp hk).1
  have hksl : ∀ k ∈ commonKeys ja en, k ∈ ja.cols := by
    intro k hk
    have h := (List.mem_filter.mp hk).2
    simp at h
    exact h.1
  have hksr : ∀ k ∈ commonKeys ja en, k ∈ en.cols := by
    intro k hk
    have h := (List.mem_filter.mp hk).2
    simp at h
    exact h.2
  constructor
  · rintro ⟨row, hrow, hρ⟩
    obtain ⟨row2, hrow2, he⟩ := outerMerge_row_swap (Or.inl rfl) (Or.inr rfl)
      hsub hksl hksr hWFja hWFen hn1 hn2 row hrow
    exact ⟨row2, hrow2, fun c => (he c).symm.trans (hρ c)⟩
  · rintro ⟨row, hrow, hρ⟩
    obtain ⟨row2, hrow2, he⟩ := outerMerge_row_swap (Or.inr rfl) (Or.inl rfl)
      hsub hksr hksl hWFen hWFja hn2 hn1 row hrow
    exact ⟨row2, hrow2, fun c => (he c).symm.trans (hρ c)⟩

/-- Witness for C8 at the concrete scenario tables, instantiated at one
concrete row function. -/
theorem C8_outer_join_commutative_witness :
    (∃ row ∈ (outerMerge c3wja c3wen (commonKeys c3wja c3wen) "_ja" "_en").rows,
        ∀ c, aget row c = aget [("req_id", some "V1.1.1")] c) ↔
      (∃ row ∈ (outerMerge c3wen c3wja (commonKeys c3wja c3wen) "_en" "_ja").rows,
        ∀ c, aget row c = aget [("req_id", some "V1.1.1")] c) :=
  (C8_outer_join_commutative c3wja c3wen (by decide) (by decide) (by decide)
    (by decide)).2 (aget [("req_id", some "V1.1.1")])

end AsvsMerge

